import Mathlib

/-!
Shallow embedding of the orix orientation / Miller-index code under
verification: `src/orix/vector/miller.py`, `src/orix/sampling/SO3_sampling.py`
and `src/orix/gridding/grid_generators.py`.

Floating-point arrays are modelled by exact rationals (for the index
arithmetic, which is decidable) and by real numbers (for the trigonometric
sampling code); batches are lists.  Python exceptions are modelled by
`Except String`.
-/

/-- A 3-component vector of exact rationals, modelling one row of a float
`(..., 3)` array. -/
structure Vec3 where
  x : ℚ
  y : ℚ
  z : ℚ
deriving DecidableEq, Repr

/-- A 4-component vector of exact rationals, modelling one row of a float
`(..., 4)` index array (hkil or UVTW). -/
structure Vec4 where
  c1 : ℚ
  c2 : ℚ
  c3 : ℚ
  c4 : ℚ
deriving DecidableEq, Repr

/-- A 3x3 rational matrix given by rows, modelling a structure matrix or a
point-group operation acting on Cartesian coordinates. -/
structure Mat3 where
  r1 : Vec3
  r2 : Vec3
  r3 : Vec3
deriving DecidableEq, Repr

/-- Dot product of two rational 3-vectors. -/
def dot3 (u v : Vec3) : ℚ := u.x * v.x + u.y * v.y + u.z * v.z

/-- Matrix times column vector, modelling `m.dot(v.T).T` for one row `v`. -/
def mulVec (m : Mat3) (v : Vec3) : Vec3 := ⟨dot3 m.r1 v, dot3 m.r2 v, dot3 m.r3 v⟩

/-- The identity 3x3 matrix. -/
def idMat3 : Mat3 := ⟨⟨1, 0, 0⟩, ⟨0, 1, 0⟩, ⟨0, 0, 1⟩⟩

/-- The zero vector, modelling a row of `Vector3d.zero` data. -/
def zeroVec : Vec3 := ⟨0, 0, 0⟩

/-- The coordinate formats a `Miller` batch can be tagged with
(`miller.py` line 164: `formats = ["xyz", "uvw", "UVTW", "hkl", "hkil"]`). -/
inductive CoordinateFormat where
  | xyz
  | uvw
  | UVTW
  | hkl
  | hkil
deriving DecidableEq, Repr

/-- The phase record a `Miller` batch references.  In the source
(`crystal_map/phase_list.py`) a `Phase` exposes `point_group` (a `Symmetry`,
a batch of rotations; here: orthogonal matrices acting on Cartesian data) and
`structure.lattice`, from which `miller.py` derives the direct structure
matrix (`_direct_structure_matrix`) and the reciprocal structure matrix (its
inverse transpose, `_reciprocal_structure_matrix`).  No claim under proof
depends on how the two matrices are derived from the lattice parameters, so
the phase is modelled as carrying both matrices as data. -/
structure Phase where
  pointGroup : List Mat3
  dsm : Mat3
  rsm : Mat3
deriving DecidableEq, Repr

/-- A `Miller` batch (`miller.py` class `Miller`): Cartesian data rows, a
reference to a phase, and a coordinate-format tag. -/
structure Miller where
  data : List Vec3
  phase : Phase
  coordinateFormat : CoordinateFormat
deriving DecidableEq, Repr

/-- `_uvw2xyz` (miller.py lines 593-595): direct structure matrix applied to
a uvw triple. -/
def uvw2xyz (dsm : Mat3) (uvw : Vec3) : Vec3 := mulVec dsm uvw

/-- `_hkl2xyz` (miller.py lines 603-605): reciprocal structure matrix applied
to an hkl triple. -/
def hkl2xyz (rsm : Mat3) (hkl : Vec3) : Vec3 := mulVec rsm hkl

/-- `_hkl2hkil` (miller.py lines 613-622): insert `i = -(h + k)` as the
third Miller-Bravais index. -/
def hkl2hkil (v : Vec3) : Vec4 := ⟨v.x, v.y, -(v.x + v.y), v.z⟩

/-- `_hkil2hkl` (miller.py lines 625-630): drop the redundant third
Miller-Bravais index. -/
def hkil2hkl (v : Vec4) : Vec3 := ⟨v.c1, v.c2, v.c4⟩

/-- `_uvw2UVTW` (miller.py lines 641-656), default (DeGraef) convention, the
only one used inside `src`: `U = (2u - v)/3`, `V = (2v - u)/3`,
`T = -(u + v)/3`, `W = w`. -/
def uvw2UVTW (v : Vec3) : Vec4 :=
  ⟨(2 * v.x - v.y) / 3, (2 * v.y - v.x) / 3, -(v.x + v.y) / 3, v.z⟩

/-- `_UVTW2uvw` (miller.py lines 659-673), default (DeGraef) convention:
`u = 2U + V`, `v = U + 2V`, `w = W`. -/
def UVTW2uvw (v : Vec4) : Vec3 := ⟨2 * v.c1 + v.c2, v.c1 + 2 * v.c2, v.c4⟩

/-- `_check_hkil` (miller.py lines 633-638): the check passes when every
row has `|h + k + i| <= 1e-4` (`np.allclose(sum, 0, atol=1e-4)`; the
relative part of the tolerance vanishes against the target 0). -/
def check_hkil (l : List Vec4) : Bool :=
  l.all fun v => |v.c1 + v.c2 + v.c3| ≤ 1 / 10000

/-- `_check_UVTW` (miller.py lines 676-681): every row must have
`|U + V + T| <= 1e-4`. -/
def check_UVTW (l : List Vec4) : Bool :=
  l.all fun v => |v.c1 + v.c2 + v.c3| ≤ 1 / 10000

/-- The `Miller.__init__` branch for `hkil` input (miller.py lines 116-121):
validate the closure constraint, then convert `hkil` to `hkl` and on to
Cartesian storage.  The raised `ValueError` is modelled as `Except.error`. -/
def millerFromHkil (hkil : List Vec4) (phase : Phase) : Except String Miller :=
  if check_hkil hkil then
    Except.ok
      ⟨hkil.map fun v => hkl2xyz phase.rsm (hkil2hkl v), phase, CoordinateFormat.hkil⟩
  else
    Except.error "The Miller-Bravais indices convention h + k + i = 0 is not satisfied"

/-- The `Miller.__init__` branch for `UVTW` input (miller.py lines 108-112):
validate the closure constraint, then convert `UVTW` to `uvw` and on to
Cartesian storage. -/
def millerFromUVTW (UVTW : List Vec4) (phase : Phase) : Except String Miller :=
  if check_UVTW UVTW then
    Except.ok
      ⟨UVTW.map fun v => uvw2xyz phase.dsm (UVTW2uvw v), phase, CoordinateFormat.UVTW⟩
  else
    Except.error "The Miller-Bravais indices convention U + V + T = 0 is not satisfied"

/-- C3: For every hkl index triple, `_hkil2hkl(_hkl2hkil(hkl))` equals hkl
exactly, and for every uvw index triple, `_UVTW2uvw(_uvw2UVTW(uvw))` equals
uvw exactly: the composed conversions are the identity (arithmetic modelled
exactly over the rationals). -/
theorem hkil_and_UVTW_round_trip (v : Vec3) :
    hkil2hkl (hkl2hkil v) = v ∧ UVTW2uvw (uvw2UVTW v) = v := by
  obtain ⟨x, y, z⟩ := v
  constructor
  · rfl
  · simp only [uvw2UVTW, UVTW2uvw, Vec3.mk.injEq]
    exact ⟨by ring, by ring, trivial⟩

/-- The closure-constraint violation predicate: some row of the 4-index input
has first-three-components sum deviating from zero by more than the 1e-4
tolerance. -/
def closureViolated (l : List Vec4) : Prop :=
  ∃ v ∈ l, 1 / 10000 < |v.c1 + v.c2 + v.c3|

instance (l : List Vec4) : Decidable (closureViolated l) := by
  unfold closureViolated; infer_instance

theorem check_hkil_iff (l : List Vec4) :
    check_hkil l = true ↔ ¬ closureViolated l := by
  simp only [check_hkil, List.all_eq_true, decide_eq_true_eq, closureViolated]
  push_neg
  simp only [not_lt]

/-- C5: Constructing a Miller batch from hkil (or UVTW) indices fails with a
validation error if and only if some row has its first three index components
summing to more than 1e-4 away from zero; on failure no batch is produced, and
on success the batch holds the inputs converted to hkl (resp. uvw) and then to
Cartesian storage by the reciprocal (resp. direct) structure matrix. -/
theorem miller_4index_construction (l : List Vec4) (p : Phase) :
    ((∃ e, millerFromHkil l p = Except.error e) ↔ closureViolated l)
    ∧ (∀ m, millerFromHkil l p = Except.ok m →
        m = ⟨l.map fun v => hkl2xyz p.rsm (hkil2hkl v), p, CoordinateFormat.hkil⟩)
    ∧ ((∃ e, millerFromUVTW l p = Except.error e) ↔ closureViolated l)
    ∧ (∀ m, millerFromUVTW l p = Except.ok m →
        m = ⟨l.map fun v => uvw2xyz p.dsm (UVTW2uvw v), p, CoordinateFormat.UVTW⟩) := by
  have hUV : check_UVTW l = check_hkil l := rfl
  by_cases hc : check_hkil l
  · have hnv : ¬ closureViolated l := (check_hkil_iff l).mp hc
    refine ⟨?_, ?_, ?_, ?_⟩
    · simp [millerFromHkil, hc, hnv]
    · intro m hm
      simp only [millerFromHkil, hc, if_true] at hm
      exact (Except.ok.injEq _ _).mp hm.symm
    · simp [millerFromUVTW, hUV, hc, hnv]
    · intro m hm
      simp only [millerFromUVTW, hUV, hc, if_true] at hm
      exact (Except.ok.injEq _ _).mp hm.symm
  · have hv : closureViolated l := by
      by_contra hnv
      exact hc ((check_hkil_iff l).mpr hnv)
    refine ⟨?_, ?_, ?_, ?_⟩
    · simp [millerFromHkil, hc, hv]
    · intro m hm
      simp [millerFromHkil, hc] at hm
    · simp [millerFromUVTW, hUV, hc, hv]
    · intro m hm
      simp [millerFromUVTW, hUV, hc] at hm

/-- Modelled from the spec: `Vector3d.unique` (base geometric-vector class,
outside `src`) — per spec 4.5, deduplicate a batch down to its distinct set;
the numeric tolerance of the reference implementation is modelled as exact
equality on exact rationals, keeping first occurrences. -/
def dedupFirst {α : Type} [DecidableEq α] (l : List α) : List α :=
  l.foldl (fun acc v => if v ∈ acc then acc else acc ++ [v]) []

/-- The symmetry orbit of one vector: every point-group operation applied to
it (`operations.outer(self)` restricted to one input vector, the column
`v2[:, i]` of miller.py line 520). -/
def orbit (ops : List Mat3) (v : Vec3) : List Vec3 := ops.map fun g => mulVec g v

/-- `Miller.symmetrise` (miller.py lines 474-544).  The result triple models
`(m, multiplicity, idx)`; the Python method only returns the last two
components when the corresponding flags are set, and computes them only in
the `unique` branch (empty lists stand for the absent arrays).  The raised
`ValueError` configuration errors are modelled as `Except.error`.

In the `unique` branch the source deduplicates the orbit of each input vector,
stores it into row `i` of a zero-initialised `(n_v, M)` batch `v3` (so each
row is the deduplicated orbit padded with zero vectors), records the orbit
size as the multiplicity, writes the input index into the first
`sum(multiplicity)` slots of `idx` (initialised to -1), then keeps only the
rows of the flattened batch whose component-absolute sum is non-zero
(`sum(abs(v)) != 0` over the rationals is `v != 0`) and truncates `idx` to
the number of surviving vectors. -/
def symmetrise (m : Miller) (unique returnMultiplicity returnIndex : Bool) :
    Except String (Miller × List ℕ × List ℤ) :=
  if returnMultiplicity && !unique then
    Except.error "`unique` must be True when `return_multiplicity` is True"
  else if returnIndex && !unique then
    Except.error "`unique` must be True when `return_index` is True"
  else
    let ops := m.phase.pointGroup
    if unique then
      let M := ops.length
      let uniq := m.data.map fun v => dedupFirst (orbit ops v)
      let mult : List ℕ := uniq.map List.length
      let rows : List (List Vec3) :=
        uniq.map fun vi => vi ++ List.replicate (M - vi.length) zeroVec
      let outData := rows.flatten.filter fun v => decide (v ≠ zeroVec)
      let idxFull : List ℤ :=
        (((List.range m.data.length).zip uniq).map fun p =>
            List.replicate p.2.length (p.1 : ℤ)).flatten
          ++ List.replicate (m.data.length * M - mult.sum) (-1)
      let idx := idxFull.take outData.length
      Except.ok (⟨outData, m.phase, m.coordinateFormat⟩, mult, idx)
    else
      let flat := (ops.map fun g => m.data.map fun v => mulVec g v).flatten
      Except.ok (⟨flat, m.phase, m.coordinateFormat⟩, [], [])

/-- C6: `Miller.symmetrise` raises a configuration error, before any orbit is
computed, whenever `return_multiplicity=True` or `return_index=True` is
requested together with `unique=False`; with `unique=True` every flag
combination succeeds. -/
theorem symmetrise_error_policy (m : Miller) (rm ri : Bool) :
    ((rm = true ∨ ri = true) → ∃ e, symmetrise m false rm ri = Except.error e)
    ∧ (∃ r, symmetrise m true rm ri = Except.ok r) := by
  constructor
  · intro h
    cases rm <;> cases ri <;> simp at h <;> exact ⟨_, rfl⟩
  · cases rm <;> cases ri <;> exact ⟨_, rfl⟩

theorem length_foldl_dedup {α : Type} [DecidableEq α] (l acc : List α) :
    (l.foldl (fun acc v => if v ∈ acc then acc else acc ++ [v]) acc).length
      ≤ acc.length + l.length := by
  induction l generalizing acc with
  | nil => simp
  | cons a t ih =>
    simp only [List.foldl_cons, List.length_cons]
    by_cases hmem : a ∈ acc
    · rw [if_pos hmem]
      have := ih acc
      omega
    · rw [if_neg hmem]
      have := ih (acc ++ [a])
      simp only [List.length_append, List.length_singleton] at this
      omega

theorem mem_foldl_dedup {α : Type} [DecidableEq α] {a : α} (l acc : List α) :
    a ∈ l.foldl (fun acc v => if v ∈ acc then acc else acc ++ [v]) acc →
      a ∈ acc ∨ a ∈ l := by
  induction l generalizing acc with
  | nil => exact fun h => Or.inl h
  | cons b t ih =>
    intro h
    simp only [List.foldl_cons] at h
    by_cases hmem : b ∈ acc
    · rw [if_pos hmem] at h
      rcases ih acc h with h1 | h1
      · exact Or.inl h1
      · exact Or.inr (List.mem_cons_of_mem b h1)
    · rw [if_neg hmem] at h
      rcases ih (acc ++ [b]) h with h1 | h1
      · rcases List.mem_append.mp h1 with h2 | h2
        · exact Or.inl h2
        · exact Or.inr (by simpa using Or.inl (List.mem_singleton.mp h2))
      · exact Or.inr (List.mem_cons_of_mem b h1)

theorem dedupFirst_length_le {α : Type} [DecidableEq α] (l : List α) :
    (dedupFirst l).length ≤ l.length := by
  simpa using length_foldl_dedup l []

theorem mem_of_mem_dedupFirst {α : Type} [DecidableEq α] {a : α} {l : List α}
    (h : a ∈ dedupFirst l) : a ∈ l := by
  rcases mem_foldl_dedup l [] h with h1 | h1
  · simp at h1
  · exact h1

theorem filter_replicate_zeroVec (k : ℕ) :
    (List.replicate k zeroVec).filter (fun v => decide (v ≠ zeroVec)) = [] := by
  induction k with
  | zero => rfl
  | succ n ih => simp [List.replicate_succ, ih]

theorem padded_filter_length (M : ℕ) (L : List (List Vec3))
    (hL : ∀ u ∈ L, ∀ x ∈ u, x ≠ zeroVec) :
    ((L.map fun vi => vi ++ List.replicate (M - vi.length) zeroVec).flatten.filter
        fun v => decide (v ≠ zeroVec)).length = (L.map List.length).sum := by
  induction L with
  | nil => rfl
  | cons u t ih =>
    have hu : ∀ x ∈ u, x ≠ zeroVec := hL u (List.mem_cons_self u t)
    have h1 : u.filter (fun v => decide (v ≠ zeroVec)) = u :=
      List.filter_eq_self.mpr fun a ha => by simpa using hu a ha
    have h2 := ih fun w hw => hL w (List.mem_cons_of_mem u hw)
    simp only [List.map_cons, List.flatten_cons, List.filter_append,
      List.length_append, List.sum_cons, h1, filter_replicate_zeroVec,
      List.append_nil, h2]

/-- C2 (amended): for `Miller.symmetrise(unique=True, return_multiplicity=True,
return_index=True)` on a batch of N input vectors under a point group of
order M, provided no input vector maps to the zero vector under any group
operation (as holds for any nonzero inputs under a rotation group: the source
silently drops zero rows of the orbit batch), every reported multiplicity is
at most M and the number of returned vectors equals the sum of the
multiplicities. -/
theorem symmetrise_multiplicity_sum (m : Miller)
    (h : ∀ v ∈ m.data, ∀ g ∈ m.phase.pointGroup, mulVec g v ≠ zeroVec) :
    ∃ out mult idx, symmetrise m true true true = Except.ok (out, mult, idx)
      ∧ (∀ c ∈ mult, c ≤ m.phase.pointGroup.length)
      ∧ out.data.length = mult.sum := by
  refine ⟨_, _, _, rfl, ?_, ?_⟩
  · intro c hc
    simp only [List.map_map, List.mem_map, Function.comp] at hc
    obtain ⟨v, hv, rfl⟩ := hc
    calc (dedupFirst (orbit m.phase.pointGroup v)).length
        ≤ (orbit m.phase.pointGroup v).length := dedupFirst_length_le _
      _ = m.phase.pointGroup.length := List.length_map _ _
  · rw [padded_filter_length]
    intro u hu x hx
    simp only [List.mem_map] at hu
    obtain ⟨v, hv, rfl⟩ := hu
    have hxo : x ∈ orbit m.phase.pointGroup v := mem_of_mem_dedupFirst hx
    simp only [orbit, List.mem_map] at hxo
    obtain ⟨g, hg, rfl⟩ := hxo
    exact h v hv g hg

/-- The concrete phase used by the C2 counterexample and witness: the
identity-only point group with identity structure matrices. -/
def phaseId : Phase := ⟨[idMat3], idMat3, idMat3⟩

/-- C2 as frozen is false at a batch holding the zero vector: symmetrise with
unique, multiplicity and index on `[0, 0, 0]` under the identity-only group
returns zero vectors but multiplicity sum 1. -/
theorem symmetrise_multiplicity_sum_counterexample :
    symmetrise ⟨[zeroVec], phaseId, CoordinateFormat.hkl⟩ true true true
      = Except.ok (⟨[], phaseId, CoordinateFormat.hkl⟩, [1], [])
    ∧ ([] : List Vec3).length ≠ [1].sum := ⟨by with_unfolding_all rfl, by decide⟩

theorem symmetrise_multiplicity_sum_witness :
    (∀ v ∈ (⟨[⟨1, 0, 0⟩], phaseId, CoordinateFormat.hkl⟩ : Miller).data,
      ∀ g ∈ phaseId.pointGroup, mulVec g v ≠ zeroVec)
    ∧ (∃ out mult idx,
        symmetrise ⟨[⟨1, 0, 0⟩], phaseId, CoordinateFormat.hkl⟩ true true true
          = Except.ok (out, mult, idx)
        ∧ (∀ c ∈ mult, c ≤ phaseId.pointGroup.length)
        ∧ out.data.length = mult.sum) :=
  ⟨of_decide_eq_true (by with_unfolding_all rfl),
    symmetrise_multiplicity_sum _ (of_decide_eq_true (by with_unfolding_all rfl))⟩

/-- Modelled from the spec: the base-class cross product
(`Vector3d.cross`, outside `src`), the standard Cartesian cross product
applied row-wise to broadcast batches. -/
def crossVec (u v : Vec3) : Vec3 :=
  ⟨u.y * v.z - u.z * v.y, u.z * v.x - u.x * v.z, u.x * v.y - u.y * v.x⟩

/-- The coordinate-format lookup of `Miller.cross` (miller.py line 426):
`new_fmt = dict(hkl="uvw", uvw="hkl", hkil="UVTW", UVTW="hkil")`.  The
dictionary has no entry for `"xyz"`, so looking that up raises `KeyError`:
modelled as `none`. -/
def newFmt : CoordinateFormat → Option CoordinateFormat
  | CoordinateFormat.hkl => some CoordinateFormat.uvw
  | CoordinateFormat.uvw => some CoordinateFormat.hkl
  | CoordinateFormat.hkil => some CoordinateFormat.UVTW
  | CoordinateFormat.UVTW => some CoordinateFormat.hkil
  | CoordinateFormat.xyz => none

/-- `Miller.cross` (miller.py lines 413-431): wrap the base-class cross
product with the same phase and the dual coordinate format. -/
def millerCross (m o : Miller) : Option Miller :=
  (newFmt m.coordinateFormat).map fun f =>
    ⟨List.zipWith crossVec m.data o.data, m.phase, f⟩

/-- `Miller.__getitem__` (miller.py lines 144-150): fancy indexing of the
Cartesian data rows, re-wrapped with the same phase and format (an index
list models NumPy fancy indexing; out-of-range entries do not occur in the
source and are skipped here). -/
def millerGetItem (m : Miller) (key : List ℕ) : Miller :=
  ⟨key.filterMap fun i => m.data[i]?, m.phase, m.coordinateFormat⟩

/-- `Miller.unit` (miller.py lines 321-328): the base-class unit-vector data
(`super().unit.data`, outside `src` — the claims under proof hold for every
row-wise base operation, so it is a parameter), re-wrapped with the same
phase and format. -/
def millerUnit (baseUnit : Vec3 → Vec3) (m : Miller) : Miller :=
  ⟨m.data.map baseUnit, m.phase, m.coordinateFormat⟩

/-- Modelled from the spec: `Vector3d.unique(return_index=True)` (base class,
outside `src`) — the deduplicated batch and, for each kept vector, the index
in the flattened input where it was found. -/
def uniqueWithIndex (l : List Vec3) : List Vec3 × List ℕ :=
  let u := dedupFirst l
  (u, u.map fun v => l.findIdx fun w => decide (w = v))

/-- The row order used by `np.lexsort(a.T)` (miller.py line 579): the last
key is primary, so rows sort by third, then second, then first component. -/
def vec3SortLt (u v : Vec3) : Bool :=
  if u.z < v.z then true
  else if v.z < u.z then false
  else if u.y < v.y then true
  else if v.y < u.y then false
  else decide (u.x < v.x)

def insertVec3 (a : Vec3) : List Vec3 → List Vec3
  | [] => [a]
  | b :: t => if vec3SortLt a b then a :: b :: t else b :: insertVec3 a t

/-- Sort the rows of one orbit, building `data_sorted[i]` of miller.py
line 580. -/
def sortRows : List Vec3 → List Vec3
  | [] => []
  | a :: t => insertVec3 a (sortRows t)

/-- One orbit flattened row-major after sorting: the comparison key
`np.unique(data_sorted, axis=0)` uses for input `i`. -/
def orbitKey (ops : List Mat3) (v : Vec3) : List ℚ :=
  ((sortRows (orbit ops v)).map fun u => [u.x, u.y, u.z]).flatten

/-- Lexicographic order on flattened orbit keys, the row order of
`np.unique(..., axis=0)`. -/
def qListLt : List ℚ → List ℚ → Bool
  | [], [] => false
  | [], _ :: _ => true
  | _ :: _, [] => false
  | a :: at1, b :: bt => if a < b then true else if b < a then false else qListLt at1 bt

def insertKey (a : List ℚ) : List (List ℚ) → List (List ℚ)
  | [] => [a]
  | b :: t => if qListLt a b then a :: b :: t else b :: insertKey a t

def sortKeys : List (List ℚ) → List (List ℚ)
  | [] => []
  | a :: t => insertKey a (sortKeys t)

/-- `Miller.unique` (miller.py lines 546-590): first the base-class dedup
(with its flattened indices); with `use_symmetry`, canonicalise the orbit of each
kept vector by the lexicographic row sort, deduplicate the canonical keys
across inputs as `np.unique(..., return_index=True, axis=0)` does (sorted
distinct keys, each mapped to its first occurrence), select those first
occurrences in reverse (`v[idx[::-1]]`), and re-wrap with the same phase and
coordinate format. -/
def millerUnique (m : Miller) (useSymmetry : Bool) : Miller × List ℕ :=
  let v := (uniqueWithIndex m.data).1
  let idx := (uniqueWithIndex m.data).2
  if useSymmetry then
    let ops := m.phase.pointGroup
    let keys := v.map fun x => orbitKey ops x
    let uniqueKeys := sortKeys (dedupFirst keys)
    let sel := (uniqueKeys.map fun k => keys.findIdx fun x => decide (x = k)).reverse
    let v2 := sel.filterMap fun i => v[i]?
    (⟨v2, m.phase, m.coordinateFormat⟩, idx)
  else
    (⟨v, m.phase, m.coordinateFormat⟩, idx)

/-- C9: `Miller.cross` returns a batch with the same phase reference and the
dual coordinate format (hkl gives uvw, uvw gives hkl, hkil gives UVTW, UVTW
gives hkil), and fails — the format lookup has no entry — exactly when the
input batch is in "xyz" format. -/
theorem miller_cross_format (m o : Miller) :
    (∀ r, millerCross m o = some r →
      r.phase = m.phase
      ∧ ((m.coordinateFormat = CoordinateFormat.hkl
            ∧ r.coordinateFormat = CoordinateFormat.uvw)
        ∨ (m.coordinateFormat = CoordinateFormat.uvw
            ∧ r.coordinateFormat = CoordinateFormat.hkl)
        ∨ (m.coordinateFormat = CoordinateFormat.hkil
            ∧ r.coordinateFormat = CoordinateFormat.UVTW)
        ∨ (m.coordinateFormat = CoordinateFormat.UVTW
            ∧ r.coordinateFormat = CoordinateFormat.hkil)))
    ∧ (millerCross m o = none ↔ m.coordinateFormat = CoordinateFormat.xyz) := by
  rcases m with ⟨d, p, cf⟩
  have hfmt : ∀ f r, (Option.map (fun f => Miller.mk (List.zipWith crossVec d o.data) p f) f)
      = some r → r.phase = p ∧ r.coordinateFormat = (f.getD CoordinateFormat.xyz) := by
    intro f r hr
    cases f <;> simp at hr
    simp [← hr]
  cases cf
  · exact ⟨fun r hr => by simp [millerCross, newFmt] at hr,
      by simp [millerCross, newFmt]⟩
  · exact ⟨fun r hr => ⟨((hfmt _ r) hr).1, Or.inr (Or.inl ⟨rfl, ((hfmt _ r) hr).2⟩)⟩,
      by simp [millerCross, newFmt]⟩
  · exact ⟨fun r hr => ⟨((hfmt _ r) hr).1, Or.inr (Or.inr (Or.inr ⟨rfl, ((hfmt _ r) hr).2⟩))⟩,
      by simp [millerCross, newFmt]⟩
  · exact ⟨fun r hr => ⟨((hfmt _ r) hr).1, Or.inl ⟨rfl, ((hfmt _ r) hr).2⟩⟩,
      by simp [millerCross, newFmt]⟩
  · exact ⟨fun r hr => ⟨((hfmt _ r) hr).1, Or.inr (Or.inr (Or.inl ⟨rfl, ((hfmt _ r) hr).2⟩))⟩,
      by simp [millerCross, newFmt]⟩

/-- C10: indexing, unit, symmetrise and unique on a Miller batch all return a
batch carrying the same phase reference and the same coordinate-format tag;
in the source none of the four methods assigns to `self.data` (each builds a
new instance from it), which the purely functional embedding reflects. -/
theorem miller_ops_preserve_phase_and_format (m : Miller) (key : List ℕ)
    (baseUnit : Vec3 → Vec3) (useSym u rm ri : Bool) :
    ((millerGetItem m key).phase = m.phase
      ∧ (millerGetItem m key).coordinateFormat = m.coordinateFormat)
    ∧ ((millerUnit baseUnit m).phase = m.phase
      ∧ (millerUnit baseUnit m).coordinateFormat = m.coordinateFormat)
    ∧ (∀ out mult idx, symmetrise m u rm ri = Except.ok (out, mult, idx) →
        out.phase = m.phase ∧ out.coordinateFormat = m.coordinateFormat)
    ∧ ((millerUnique m useSym).1.phase = m.phase
      ∧ (millerUnique m useSym).1.coordinateFormat = m.coordinateFormat) := by
  refine ⟨⟨rfl, rfl⟩, ⟨rfl, rfl⟩, ?_, ?_⟩
  · intro out mult idx hr
    cases u <;> cases rm <;> cases ri <;> simp [symmetrise] at hr <;>
      simp [← hr.1]
  · cases useSym <;> simp [millerUnique]

/-- Python `np.round` to 0 decimals: round half to even (bankers rounding),
returning the integer value. -/
def npRound (q : ℚ) : ℤ :=
  let f := Rat.floor q
  let r := q - f
  if r < 1 / 2 then f
  else if 1 / 2 < r then f + 1
  else if f % 2 = 0 then f else f + 1

/-- The smallest entry of a rational list (`np.min`; 0 for the empty list,
which the source never queries). -/
def listMinQ : List ℚ → ℚ
  | [] => 0
  | [a] => a
  | a :: t => min a (listMinQ t)

/-- `np.argmin`: index of the first occurrence of the minimum. -/
def argminQ (l : List ℚ) : ℕ := l.findIdx fun x => decide (x = listMinQ l)

/-- The per-multiplier relative rounding error of `_round_indices`
(miller.py lines 804-808): `1e-7 * round(1e7 * sum((s - round(s))**2) /
sum(s**2))` for a scaled triple `s`. -/
def roundTripleErr (s : Vec3) : ℚ :=
  (npRound (10 ^ 7 *
      (((s.x - npRound s.x) ^ 2 + (s.y - npRound s.y) ^ 2 + (s.z - npRound s.z) ^ 2)
        / (s.x ^ 2 + s.y ^ 2 + s.z ^ 2))) : ℚ) / 10 ^ 7

/-- One row of `_round_indices` (miller.py lines 759-815) for an index
triplet: divide by the largest absolute entry, scale by every integer
multiplier `1..max_index`, pick the first multiplier minimizing the relative
rounding error, and round the original triple scaled by
`(argmin + 1) / max_per_set`. -/
def roundIndicesRow (t : Vec3) (maxIndex : ℕ) : ℤ × ℤ × ℤ :=
  let maxPer := max |t.x| (max |t.y| |t.z|)
  let errs := (List.range maxIndex).map fun j =>
    roundTripleErr
      ⟨((j : ℚ) + 1) * (t.x / maxPer), ((j : ℚ) + 1) * (t.y / maxPer),
        ((j : ℚ) + 1) * (t.z / maxPer)⟩
  let idxMinError := argminQ errs
  let multiplier := ((idxMinError : ℚ) + 1) / maxPer
  (npRound (multiplier * t.x), npRound (multiplier * t.y), npRound (multiplier * t.z))

/-- `_round_indices` on a batch of index triplets; every row is processed
independently by the vectorized source (the 4-index branch drops the
redundant third component first and is not exercised by the claims). -/
def round_indices (l : List Vec3) (maxIndex : ℕ) : List (ℤ × ℤ × ℤ) :=
  l.map fun t => roundIndicesRow t maxIndex

/-- C8: `_round_indices([0.33, 0.33, 0.0], max_index=3)` returns `[1, 1, 0]`
(the arithmetic, exact here, incurs no rounding in the reference float
implementation either: `0.33/0.33` is exactly 1). -/
theorem round_indices_scenario :
    round_indices [⟨33 / 100, 33 / 100, 0⟩] 3 = [(1, 1, 0)] := by
  with_unfolding_all rfl

/-- A quaternion `(a, b, c, d)` with real components, modelling one row of a
`Rotation` batch; `a` is the scalar part (`Rotation.a`). -/
structure Quat where
  a : ℝ
  b : ℝ
  c : ℝ
  d : ℝ

/-- `np.deg2rad`. -/
noncomputable def degToRad (x : ℝ) : ℝ := x * (Real.pi / 180)

/-- Modelled from the spec: `Rotation` composition (`center * q`, outside
`src`; spec: composition = quaternion product), the Hamilton product. -/
noncomputable def qmul (p q : Quat) : Quat :=
  ⟨p.a * q.a - p.b * q.b - p.c * q.c - p.d * q.d,
   p.a * q.b + p.b * q.a + p.c * q.d - p.d * q.c,
   p.a * q.c - p.b * q.d + p.c * q.a + p.d * q.b,
   p.a * q.d + p.b * q.c - p.c * q.b + p.d * q.a⟩

/-- The threshold computed by `get_grid_local` (grid_generators.py line 89):
`grid_cosine = np.arccos(np.deg2rad(grid_width / 2))`. -/
noncomputable def grid_cosine (gridWidth : ℝ) : ℝ :=
  Real.arccos (degToRad (gridWidth / 2))

/-- `get_grid_local` (grid_generators.py lines 65-93): sample globally (the
global sample is a parameter here: `create_equispaced_grid` lives outside
`src`), keep the rotations with `q.a > grid_cosine`, then left-compose with
`center` when one is given. -/
noncomputable def get_grid_local (grid : Set Quat) (center : Option Quat)
    (gridWidth : ℝ) : Set Quat :=
  let kept := {q ∈ grid | grid_cosine gridWidth < q.a}
  match center with
  | none => kept
  | some c => Set.image (fun q => qmul c q) kept

/-- The filter threshold as claim C1 states it: the scalar part must exceed
`cos(grid_width / 2)` with the half-width converted from degrees to radians
before the cosine.  Stated from the claim, for comparison with the source
computation `grid_cosine` (which applies `arccos` instead of `cos`). -/
noncomputable def claimedLocalThreshold (gridWidth : ℝ) : ℝ :=
  Real.cos (degToRad (gridWidth / 2))

/-- The identity rotation. -/
noncomputable def idQuat : Quat := ⟨1, 0, 0, 0⟩

theorem one_le_grid_cosine_ten : (1 : ℝ) ≤ grid_cosine 10 := by
  set t : ℝ := degToRad (10 / 2) with ht
  have hπ := Real.pi_le_four
  have hπ0 := Real.pi_pos
  have ht0 : 0 ≤ t := by
    rw [ht]; unfold degToRad; positivity
  have ht9 : t ≤ 1 / 9 := by
    rw [ht]; unfold degToRad; nlinarith
  have hcos1 : (43 : ℝ) / 96 ≤ Real.cos 1 := by
    have hb := Real.cos_bound (x := 1) (by norm_num)
    have hb2 := abs_le.mp hb
    norm_num at hb2
    linarith [hb2.1]
  by_contra hlt
  push_neg at hlt
  have h1 : Real.cos 1 ≤ Real.cos (Real.arccos t) :=
    Real.cos_le_cos_of_nonneg_of_le_pi (Real.arccos_nonneg t)
      (by linarith [Real.two_le_pi]) hlt.le
  rw [Real.cos_arccos (by linarith) (by linarith)] at h1
  linarith

/-- C1 (code_bug evaluation): with the default `grid_width=10`, the source
threshold `arccos(deg2rad(5))` exceeds 1, so the scalar-part filter empties
every batch of unit quaternions (scalar part at most 1) and `get_grid_local`
returns the empty grid for any center — while the threshold the claim (and
the docstring) intends, `cos(deg2rad(5))`, keeps the identity rotation. -/
theorem get_grid_local_empty_at_default_width :
    (∀ (grid : Set Quat) (center : Option Quat),
        (∀ q ∈ grid, q.a ≤ 1) → get_grid_local grid center 10 = ∅)
    ∧ claimedLocalThreshold 10 < idQuat.a := by
  constructor
  · intro grid center h
    have hempty : {q ∈ grid | grid_cosine 10 < q.a} = ∅ := by
      ext q
      simp only [Set.mem_setOf_eq, Set.mem_empty_iff_false, iff_false, not_and]
      intro hqg hlt
      have := h q hqg
      have := one_le_grid_cosine_ten
      linarith
    unfold get_grid_local
    cases center <;> simp [hempty]
  · show Real.cos (degToRad (10 / 2)) < (1 : ℝ)
    have h0 : (0 : ℝ) < degToRad (10 / 2) := by
      unfold degToRad
      have := Real.pi_pos
      positivity
    have h9 : degToRad (10 / 2) ≤ Real.pi := by
      unfold degToRad
      nlinarith [Real.pi_pos, Real.pi_le_four]
    have := Real.cos_lt_cos_of_nonneg_of_le_pi (le_refl 0) h9 h0
    rw [Real.cos_zero] at this
    exact this

theorem get_grid_local_empty_witness :
    (∀ q ∈ ({idQuat} : Set Quat), q.a ≤ 1)
    ∧ get_grid_local {idQuat} none 10 = ∅
    ∧ claimedLocalThreshold 10 < idQuat.a := by
  have h : ∀ q ∈ ({idQuat} : Set Quat), q.a ≤ 1 := by
    intro q hq
    rw [Set.mem_singleton_iff] at hq
    rw [hq]
    exact le_refl 1
  exact ⟨h, (get_grid_local_empty_at_default_width).1 {idQuat} none h,
    (get_grid_local_empty_at_default_width).2⟩

/-- The quadruple built by `_three_uniform_samples_method`
(SO3_sampling.py lines 116-121) from one parameter triple `(u1, u2, u3)`:
`(sqrt(1-u1)*sin(2*pi*u2), sqrt(1-u1)*cos(2*pi*u2), sqrt(u1)*sin(2*pi*u3),
sqrt(u1)*cos(2*pi*u3))`. -/
noncomputable def shoemakeQuat (u1 u2 u3 : ℝ) : Quat :=
  ⟨Real.sqrt (1 - u1) * Real.sin (2 * Real.pi * u2),
   Real.sqrt (1 - u1) * Real.cos (2 * Real.pi * u2),
   Real.sqrt u1 * Real.sin (2 * Real.pi * u3),
   Real.sqrt u1 * Real.cos (2 * Real.pi * u3)⟩

/-- Euclidean norm of a quaternion. -/
noncomputable def qnorm (q : Quat) : ℝ :=
  Real.sqrt (q.a ^ 2 + q.b ^ 2 + q.c ^ 2 + q.d ^ 2)

/-- C4: every quaternion produced by the three-uniform-samples construction
from a parameter triple with `u1` in `[0, 1]` has unit norm. -/
theorem shoemake_unit_norm (u1 u2 u3 : ℝ) (h0 : 0 ≤ u1) (h1 : u1 ≤ 1) :
    qnorm (shoemakeQuat u1 u2 u3) = 1 := by
  unfold qnorm shoemakeQuat
  have e1 : Real.sqrt (1 - u1) ^ 2 = 1 - u1 := Real.sq_sqrt (by linarith)
  have e2 : Real.sqrt u1 ^ 2 = u1 := Real.sq_sqrt h0
  have s2 := Real.sin_sq_add_cos_sq (2 * Real.pi * u2)
  have s3 := Real.sin_sq_add_cos_sq (2 * Real.pi * u3)
  have hsum :
      (Real.sqrt (1 - u1) * Real.sin (2 * Real.pi * u2)) ^ 2
        + (Real.sqrt (1 - u1) * Real.cos (2 * Real.pi * u2)) ^ 2
        + (Real.sqrt u1 * Real.sin (2 * Real.pi * u3)) ^ 2
        + (Real.sqrt u1 * Real.cos (2 * Real.pi * u3)) ^ 2 = 1 := by
    have expand :
        (Real.sqrt (1 - u1) * Real.sin (2 * Real.pi * u2)) ^ 2
          + (Real.sqrt (1 - u1) * Real.cos (2 * Real.pi * u2)) ^ 2
          + (Real.sqrt u1 * Real.sin (2 * Real.pi * u3)) ^ 2
          + (Real.sqrt u1 * Real.cos (2 * Real.pi * u3)) ^ 2
        = Real.sqrt (1 - u1) ^ 2
            * (Real.sin (2 * Real.pi * u2) ^ 2 + Real.cos (2 * Real.pi * u2) ^ 2)
          + Real.sqrt u1 ^ 2
            * (Real.sin (2 * Real.pi * u3) ^ 2 + Real.cos (2 * Real.pi * u3) ^ 2) := by
      ring
    rw [expand, e1, e2, s2, s3]
    ring
  rw [hsum, Real.sqrt_one]

theorem shoemake_unit_norm_witness :
    (0 : ℝ) ≤ 0 ∧ (0 : ℝ) ≤ 1 ∧ qnorm (shoemakeQuat 0 0 0) = 1 :=
  ⟨le_refl 0, by norm_num, shoemake_unit_norm 0 0 0 (le_refl 0) (by norm_num)⟩

/-- `num_steps = int(np.ceil(360 / resolution))` (SO3_sampling.py line 87);
`np.ceil` already yields an integer value, so the Python `int()` truncation
is the ceiling itself. -/
noncomputable def num_steps (resolution : ℝ) : ℤ := Int.ceil (360 / resolution)

open Classical in
/-- Python `int()` applied to a float: truncation toward zero. -/
noncomputable def pyInt (x : ℝ) : ℤ := if 0 ≤ x then Int.floor x else -Int.floor (-x)

/-- `e_1_min = np.cos(np.deg2rad(max_angle / 2))` (SO3_sampling.py line 95). -/
noncomputable def e_1_min (maxAngle : ℝ) : ℝ := Real.cos (degToRad (maxAngle / 2))

/-- `u_1_max = 1 - np.square(e_1_min)` (SO3_sampling.py line 96). -/
noncomputable def u_1_max (maxAngle : ℝ) : ℝ := 1 - e_1_min maxAngle ^ 2

/-- `u_2_min = np.arcsin(e_1_min) / 2 / np.pi` (SO3_sampling.py line 97). -/
noncomputable def u_2_min (maxAngle : ℝ) : ℝ :=
  Real.arcsin (e_1_min maxAngle) / 2 / Real.pi

/-- `num_1` (SO3_sampling.py line 100): `int(num_steps * u_1_max)` when that
is greater than 1, else 2. -/
noncomputable def num_1 (resolution maxAngle : ℝ) : ℤ :=
  if 1 < pyInt ((num_steps resolution : ℝ) * u_1_max maxAngle)
  then pyInt ((num_steps resolution : ℝ) * u_1_max maxAngle)
  else 2

/-- `num_2` (SO3_sampling.py lines 101-103): `int(num_steps * (1 - u_2_min))`
when that is greater than 1, else 2. -/
noncomputable def num_2 (resolution maxAngle : ℝ) : ℤ :=
  if 1 < pyInt ((num_steps resolution : ℝ) * (1 - u_2_min maxAngle))
  then pyInt ((num_steps resolution : ℝ) * (1 - u_2_min maxAngle))
  else 2

/-- C7: in the angle-bounded three-uniform-samples sampler, the step counts
chosen for the restricted u1 and u2 axes are each at least 2 for every
positive resolution and every max angle: whenever the truncated product is 1
or less the axis count is set to 2. -/
theorem restricted_axis_steps_at_least_two (resolution maxAngle : ℝ)
    (hres : 0 < resolution) :
    2 ≤ num_1 resolution maxAngle ∧ 2 ≤ num_2 resolution maxAngle := by
  unfold num_1 num_2
  constructor <;> split <;> omega

theorem restricted_axis_steps_witness :
    (0 : ℝ) < 360 ∧ 2 ≤ num_1 360 30 ∧ 2 ≤ num_2 360 30 :=
  ⟨by norm_num,
    (restricted_axis_steps_at_least_two 360 30 (by norm_num)).1,
    (restricted_axis_steps_at_least_two 360 30 (by norm_num)).2⟩
